import Mathlib

/-!
Shallow embedding of `src/hw1/optimization.py` (gradient descent / Newton
drivers with a configurable line-search step-size policy) and proofs about it.

Modelling conventions:
* numpy float64 vectors are `List ℚ` (exact arithmetic; rationals have no NaN
  or Inf values, so the source's NaN/Inf tests are constantly-false predicates,
  kept as named definitions mirroring the corresponding source lines);
* a Python `FloatingPointError` (the only exception the gradient-descent driver
  catches, under `np.seterr(all='raise')`) is `Exc.fpe`; `TypeError` /
  `ValueError` raised by configuration code are `Exc.typeError` /
  `Exc.valueError`; the unbounded `while` loop of the Armijo backtracking is
  given explicit fuel, and running out of fuel (the Python loop spinning
  forever) is `Exc.diverge`;
* the oracle (external collaborator) is a pair of possibly-raising functions;
* `scipy.optimize.line_search` (imported as `scalar_search_wolf2`) is an
  external parameter of the embedding: its Python result is
  `Option (Option ℚ)`, the outer layer distinguishing the value `None` from a
  result tuple, the inner layer being the tuple's first component `alpha`
  (which scipy sets to `None` when the strong-Wolfe search fails).
-/

/-- numpy 1-D float64 array, modelled with exact rational entries. -/
abbrev Vec := List ℚ

/-- Elementwise negation, `-v` on numpy arrays. -/
def negVec (v : Vec) : Vec := v.map (fun t => -t)

/-- Scalar multiplication `a * v` on numpy arrays. -/
def smulVec (a : ℚ) (v : Vec) : Vec := v.map (fun t => a * t)

/-- Elementwise addition `u + v` on numpy arrays. -/
def addVec (u v : Vec) : Vec := List.zipWith (· + ·) u v

/-- Elementwise subtraction `u - v` on numpy arrays. -/
def subVec (u v : Vec) : Vec := List.zipWith (· - ·) u v

/-- `np.dot(u, v)`. -/
def dot (u v : Vec) : ℚ := (List.zipWith (· * ·) u v).sum

/-- Matrix-vector product `A @ x`, rows as lists. -/
def matVec (A : List Vec) (x : Vec) : Vec := A.map (fun row => dot row x)

/-- The square of the Euclidean norm `np.linalg.norm(v) ** 2`, exact in ℚ. -/
def sqNorm (v : Vec) : ℚ := (v.map (fun t => t * t)).sum

/-- The comparison `np.linalg.norm(u) <= tol * np.linalg.norm(v)`, decided
over ℚ by comparing squares (`normLe_iff_sqrt` below proves this equal to the
real-number inequality between the Euclidean norms). -/
def normLe (u v : Vec) (tol : ℚ) : Bool :=
  decide ((0 ≤ tol ∨ sqNorm v = 0) ∧ sqNorm u ≤ tol ^ 2 * sqNorm v)

/-- Exceptional outcomes of running the embedded Python code. -/
inductive Exc where
  /-- `FloatingPointError`, trapped by `np.seterr(all='raise')`. -/
  | fpe
  /-- The unbounded Armijo `while` loop spins forever (fuel exhausted). -/
  | diverge
  /-- Python `TypeError`. -/
  | typeError
  /-- Python `ValueError`. -/
  | valueError
deriving DecidableEq, Repr

/-- The oracle consumed by the drivers: `func`, `grad` and `hess` evaluate the
objective, its gradient and its Hessian; each call may raise a
`FloatingPointError` (`Exc.fpe`). The drivers under `src/` never call `hess`
(Newton's body is an unimplemented TODO stub), but the interface declares it. -/
structure Oracle where
  func : Vec → Except Exc ℚ
  grad : Vec → Except Exc Vec
  hess : Vec → Except Exc (List Vec)

/-- An oracle given by total (never-raising) mathematical functions: the
"stateless mapping" oracle of the spec's data model. The Hessian is unused by
the embedded code. -/
def Oracle.ofPure (f : Vec → ℚ) (g : Vec → Vec) : Oracle where
  func v := .ok (f v)
  grad v := .ok (g v)
  hess _ := .ok []

/-- The keyword-argument dictionary accepted by `LineSearchTool`: each known
key either present (`some`) or absent (`none`). -/
structure OptionsDict where
  method : Option String := none
  c1 : Option ℚ := none
  c2 : Option ℚ := none
  alpha_0 : Option ℚ := none
  c : Option ℚ := none
deriving DecidableEq, Repr

/-- Python truthiness of a dict: truthy iff it has at least one key. -/
def OptionsDict.isNonempty (d : OptionsDict) : Bool :=
  d.method.isSome || d.c1.isSome || d.c2.isSome || d.alpha_0.isSome || d.c.isSome

/-- The `LineSearchTool` object after construction: exactly one method variant
with its parameters (`_method` string plus the per-method attributes). -/
inductive LineSearchTool where
  | Wolfe (c1 c2 alpha_0 : ℚ)
  | Armijo (c1 alpha_0 : ℚ)
  | Constant (c : ℚ)
deriving DecidableEq, Repr

/-- `LineSearchTool.__init__(method, **kwargs)`: dispatch on the method string,
read parameters with their defaults (`c1=1e-4`, `c2=0.9`, `alpha_0=1.0`,
`c=1.0`), raise `ValueError` on an unknown method. -/
def LineSearchTool.init (method : String) (kw : OptionsDict) :
    Except Exc LineSearchTool :=
  if method = "Wolfe" then
    .ok (.Wolfe (kw.c1.getD (1/10000)) (kw.c2.getD (9/10)) (kw.alpha_0.getD 1))
  else if method = "Armijo" then
    .ok (.Armijo (kw.c1.getD (1/10000)) (kw.alpha_0.getD 1))
  else if method = "Constant" then
    .ok (.Constant (kw.c.getD 1))
  else
    .error .valueError

/-- `LineSearchTool.from_dict(options)` applied to an actual dict:
`cls(**options)`, where the `method` keyword defaults to `'Wolfe'`.
(The `type(options) != dict` TypeError guard lives in `get_line_search_tool`
below, where the non-dict argument cases are modelled.) -/
def LineSearchTool.fromDict (kw : OptionsDict) : Except Exc LineSearchTool :=
  LineSearchTool.init (kw.method.getD "Wolfe") kw

/-- `LineSearchTool()` with no arguments: the default Wolfe configuration. -/
def defaultLineSearchTool : LineSearchTool :=
  .Wolfe (1/10000) (9/10) 1

/-- The Python value passed as `line_search_options`: `None`, a
`LineSearchTool` instance, a dict, or any other value (tracked only by its
truthiness). -/
inductive LSOptions where
  | none
  | tool (t : LineSearchTool)
  | dict (d : OptionsDict)
  | other (truthy : Bool)
deriving DecidableEq, Repr

/-- Python truthiness of the `line_search_options` argument: `None` is falsy,
a class instance (no `__bool__`/`__len__`) is truthy, a dict is truthy iff
nonempty, and any other value carries its own truthiness. -/
def LSOptions.truthy : LSOptions → Bool
  | .none => false
  | .tool _ => true
  | .dict d => d.isNonempty
  | .other t => t

/-- `get_line_search_tool(line_search_options)`: on a truthy argument, return a
`LineSearchTool` instance as-is and send anything else through `from_dict`
(which raises `TypeError` on a non-dict); on a falsy argument (`None`, but
also `0`, `''`, `[]`, `{}` …) construct the default `LineSearchTool()`. -/
def get_line_search_tool (o : LSOptions) : Except Exc LineSearchTool :=
  if o.truthy then
    match o with
    | .tool t => .ok t
    | .dict d => LineSearchTool.fromDict d
    | _ => .error .typeError
  else
    .ok defaultLineSearchTool

/-- `phi(a) = oracle.func(x_k + a * d_k)` of `line_search`. -/
def phi (O : Oracle) (x d : Vec) (a : ℚ) : Except Exc ℚ :=
  O.func (addVec x (smulVec a d))

/-- `phi_derivative(a) = np.dot(oracle.grad(x_k + a * d_k), d_k)`. -/
def phiDeriv (O : Oracle) (x d : Vec) (a : ℚ) : Except Exc ℚ := do
  let g ← O.grad (addVec x (smulVec a d))
  pure (dot g d)

/-- `armijo_condition(a)`: `phi(a) <= phi(0) + c1 * a * phi_derivative(0)`,
evaluating `phi(a)`, `phi(0)`, `phi_derivative(0)` in the source's order. -/
def armijoCondition (O : Oracle) (x d : Vec) (c1 a : ℚ) : Except Exc Bool := do
  let l ← phi O x d a
  let r0 ← phi O x d 0
  let dr ← phiDeriv O x d 0
  pure (decide (l ≤ r0 + c1 * a * dr))

/-- Starting guess of the Armijo backtracking:
`self.alpha_0 if previous_alpha is None else 2 * previous_alpha`. -/
def startAlpha (alpha_0 : ℚ) : Option ℚ → ℚ
  | Option.none => alpha_0
  | Option.some p => 2 * p

/-- The `while not armijo_condition(a): a /= 2` loop, with explicit fuel for
the unbounded Python loop; `Exc.diverge` when the fuel runs out. -/
def armijoLoop (O : Oracle) (x d : Vec) (c1 : ℚ) : ℕ → ℚ → Except Exc ℚ
  | 0, _ => .error .diverge
  | n + 1, a => do
    let ok ← armijoCondition O x d c1 a
    if ok then pure a else armijoLoop O x d c1 n (a / 2)

/-- The inner `armijo()` procedure of `line_search`. -/
def armijo (O : Oracle) (x d : Vec) (c1 alpha_0 : ℚ) (prev : Option ℚ)
    (fuel : ℕ) : Except Exc ℚ :=
  armijoLoop O x d c1 fuel (startAlpha alpha_0 prev)

/-- The external `scipy.optimize.line_search` (imported as
`scalar_search_wolf2`), as a parameter of the embedding. Its Python return
value is modelled as `Option (Option ℚ)`: `none` is the Python value `None`
itself (which the actual scipy function never returns — it always returns a
6-tuple), `some t` is a tuple whose first component `t` is the accepted step
`alpha`, or `None` (`t = none`) when the strong-Wolfe search failed. -/
def WolfeSearcher : Type :=
  Oracle → Vec → Vec → ℚ → ℚ → Except Exc (Option (Option ℚ))

/-- `scipy.optimize.line_search` always returns a result tuple, never the bare
value `None`; this is the documented scipy contract for the external call. -/
def ScipyContract (w : WolfeSearcher) : Prop :=
  ∀ O x d c1 c2, w O x d c1 c2 ≠ .ok Option.none

/-- `LineSearchTool.line_search(oracle, x_k, d_k, previous_alpha)`: dispatch on
the configured method. In the `'Wolfe'` branch, call the external searcher and
return `armijo()` when the call's result `a` is the value `None`, else the
tuple component `a[0]`; the `'Armijo'` branch runs the backtracking; the
`'Constant'` branch returns `self.c`. The result is `Option ℚ` because `a[0]`
is `None` when scipy's search fails. -/
def lineSearch (w : WolfeSearcher) (tool : LineSearchTool) (O : Oracle)
    (x d : Vec) (prev : Option ℚ) (fuel : ℕ) : Except Exc (Option ℚ) :=
  match tool with
  | .Wolfe c1 c2 alpha_0 => do
    let a ← w O x d c1 c2
    match a with
    | Option.none => do
      let r ← armijo O x d c1 alpha_0 prev fuel
      pure (some r)
    | Option.some t => pure t
  | .Armijo c1 alpha_0 => do
    let r ← armijo O x d c1 alpha_0 prev fuel
    pure (some r)
  | .Constant c => pure (some c)

/-- The trace `history` dictionary (a `defaultdict(list)`): the four keys the
driver appends to. Wall-clock times are modelled as unit values (only their
count is meaningful); `grad_norm` records the gradient norm through its exact
square `sqNorm` (ℚ has no square root; lengths and append structure are
unchanged). A `defaultdict` key is "present" iff it was appended to at least
once, i.e. iff the corresponding list is nonempty. -/
structure History where
  time : List Unit
  func : List ℚ
  grad_norm : List ℚ
  x : List Vec
deriving DecidableEq, Repr

/-- The empty `defaultdict(list)`. -/
def emptyHistory : History := ⟨[], [], [], []⟩

/-- `history = defaultdict(list) if trace else None`. -/
def initHistory (trace : Bool) : Option History :=
  if trace then some emptyHistory else none

/-- `extend_history(x_k)` on an actual history: compute `g_k = oracle.grad(x_k)`
(raising before anything is appended on failure), append the time record,
append `oracle.func(x_k)` (on failure the time record is already in), append
the gradient norm, and append `x_k` itself only when `x_k.size <= 2`. -/
def extendHistory (O : Oracle) (x : Vec) (h : History) :
    Except Exc Unit × History :=
  match O.grad x with
  | .error e => (.error e, h)
  | .ok g =>
    let h1 : History := { h with time := h.time ++ [()] }
    match O.func x with
    | .error e => (.error e, h1)
    | .ok fx =>
      let h2 : History := { h1 with
        func := h1.func ++ [fx]
        grad_norm := h1.grad_norm ++ [sqNorm g] }
      let h3 : History := if x.length ≤ 2 then { h2 with x := h2.x ++ [x] } else h2
      (.ok (), h3)

/-- `extend_history` including its `if history is None: return` guard. -/
def extendHistoryOpt (O : Oracle) (x : Vec) :
    Option History → Except Exc Unit × Option History
  | Option.none => (.ok (), Option.none)
  | Option.some h =>
    let r := extendHistory O x h
    (r.1, some r.2)

/-- `time_to_stop(x_k)`: `np.linalg.norm(oracle.grad(x_k)) <=
tolerance * np.linalg.norm(oracle.grad(x_0))`, evaluating `g_0` then `g_k` as
the source does. -/
def time_to_stop (O : Oracle) (x0 : Vec) (tol : ℚ) (x : Vec) :
    Except Exc Bool := do
  let g0 ← O.grad x0
  let gk ← O.grad x
  pure (normLe gk g0 tol)

/-- `np.any(np.isnan(...))` on the rational modelling a finite float: always
false (exact rationals are never NaN). -/
def isNanQ (_ : ℚ) : Bool := false

/-- `np.any(np.isinf(...))` on a rational vector: always false (exact
rationals are never infinite). -/
def isInfVec (_ : Vec) : Bool := false

/-- The `for _ in range(max_iter)` loop of `gradient_descent` (first argument:
remaining iterations), followed at zero by the source's final
`extend_history` / `time_to_stop` re-check. Each iteration: append the trace
record, test the stopping criterion (returning `"success"`), compute
`d_k = -g_k`, run the line search (a step of `None` makes
`np.array(a_k).astype(np.float64)` raise `TypeError`), run the NaN/Inf guards,
and rebind `x_k = x_k + a_k * d_k`, remembering `a_k` as the next warm start.
The accumulated history is threaded through and survives exceptions. -/
def gdLoop (w : WolfeSearcher) (O : Oracle) (tool : LineSearchTool) (x0 : Vec)
    (tol : ℚ) (fuel : ℕ) :
    ℕ → Vec → Option ℚ → Option History →
      Except Exc (Vec × String) × Option History
  | 0, x, _, h =>
    match extendHistoryOpt O x h with
    | (.error e, h1) => (.error e, h1)
    | (.ok _, h1) =>
      match time_to_stop O x0 tol x with
      | .error e => (.error e, h1)
      | .ok true => (.ok (x, "success"), h1)
      | .ok false => (.ok (x, "iterations_exceeded"), h1)
  | n + 1, x, aPrev, h =>
    match extendHistoryOpt O x h with
    | (.error e, h1) => (.error e, h1)
    | (.ok _, h1) =>
      match time_to_stop O x0 tol x with
      | .error e => (.error e, h1)
      | .ok true => (.ok (x, "success"), h1)
      | .ok false =>
        match O.grad x with
        | .error e => (.error e, h1)
        | .ok g =>
          let d := negVec g
          match lineSearch w tool O x d aPrev fuel with
          | .error e => (.error e, h1)
          | .ok Option.none => (.error .typeError, h1)
          | .ok (Option.some a) =>
            if isNanQ a then (.ok (x, "a_k computational_error"), h1)
            else if isInfVec x then (.ok (x, "x_k computational_error"), h1)
            else if isInfVec d then (.ok (x, "d_k computational_error"), h1)
            else gdLoop w O tool x0 tol fuel n
              (addVec x (smulVec a d)) (some a) h1

/-- The body of `gradient_descent`'s `try:` block: resolve the line-search
tool, start from `x_k = np.copy(x_0)` (value-identical; the aliasing side is
modelled separately at the heap level) with `a_k = None`, and run the loop. -/
def gdBody (w : WolfeSearcher) (O : Oracle) (opts : LSOptions) (x0 : Vec)
    (tol : ℚ) (maxIter fuel : ℕ) (h : Option History) :
    Except Exc (Vec × String) × Option History :=
  match get_line_search_tool opts with
  | .error e => (.error e, h)
  | .ok tool => gdLoop w O tool x0 tol fuel maxIter x0 Option.none h

/-- `gradient_descent(oracle, x_0, tolerance, max_iter, line_search_options,
trace)`: run the body and catch `FloatingPointError` only, converting it to
the return value `(x_0, 'computational_error', history)`; any other exception
(`TypeError`, `ValueError`, or divergence) propagates to the caller. -/
def gradient_descent (w : WolfeSearcher) (O : Oracle) (opts : LSOptions)
    (x0 : Vec) (tol : ℚ) (maxIter : ℕ) (trace : Bool) (fuel : ℕ) :
    Except Exc (Vec × String × Option History) :=
  match gdBody w O opts x0 tol maxIter fuel (initHistory trace) with
  | (.ok (x, msg), h) => .ok (x, msg, h)
  | (.error .fpe, h) => .ok (x0, "computational_error", h)
  | (.error e, _) => .error e

/-- `newton(oracle, x_0, tolerance, max_iter, line_search_options, trace)` as
implemented in the source: initialize the history and the line-search tool,
set `x_k = np.copy(x_0)`, and then — the body being an unimplemented
`# TODO: Implement Newton's method.` stub — immediately return
`(x_k, 'success', history)` without consulting the oracle at all. -/
def newton (O : Oracle) (opts : LSOptions) (x0 : Vec) (tol : ℚ)
    (maxIter : ℕ) (trace : Bool) :
    Except Exc (Vec × String × Option History) :=
  let history := initHistory trace
  match get_line_search_tool opts with
  | .error e => .error e
  | .ok _ => .ok (x0, "success", history)

/-- Modelled from the spec: the convex quadratic oracle
`f(x) = ½ xᵀAx − bᵀx` with gradient `Ax − b` and Hessian `A` (the repository's
oracle implementations live outside `src/`; this is the quadratic oracle of
spec §8's testable properties). -/
def quadOracle (A : List Vec) (b : Vec) : Oracle where
  func x := .ok (dot x (matVec A x) / 2 - dot b x)
  grad x := .ok (subVec (matVec A x) b)
  hess _ := .ok A

/-! ## Supporting lemmas -/

theorem sqNorm_nonneg (v : Vec) : 0 ≤ sqNorm v := by
  induction v with
  | nil => simp [sqNorm]
  | cons a t ih =>
    have := mul_self_nonneg a
    simp only [sqNorm, List.map_cons, List.sum_cons] at *
    linarith

/-- The executable squared-norm comparison `normLe` agrees with the
real-number statement `‖u‖ ≤ tol * ‖v‖` about Euclidean norms, certifying the
embedding of the source's `np.linalg.norm` stopping test. -/
theorem normLe_iff_sqrt (u v : Vec) (tol : ℚ) :
    normLe u v tol = true ↔
      Real.sqrt ((sqNorm u : ℝ)) ≤ (tol : ℝ) * Real.sqrt ((sqNorm v : ℝ)) := by
  have hu : (0:ℝ) ≤ ((sqNorm u : ℚ) : ℝ) := by exact_mod_cast sqNorm_nonneg u
  have hv : (0:ℝ) ≤ ((sqNorm v : ℚ) : ℝ) := by exact_mod_cast sqNorm_nonneg v
  rw [normLe, decide_eq_true_eq]
  constructor
  · rintro ⟨h0, hle⟩
    have hle' : ((sqNorm u : ℚ) : ℝ) ≤ ((tol : ℝ)) ^ 2 * ((sqNorm v : ℚ) : ℝ) := by
      exact_mod_cast hle
    have h1 : Real.sqrt ((sqNorm u : ℝ)) ≤ Real.sqrt ((tol : ℝ) ^ 2 * ((sqNorm v : ℚ) : ℝ)) :=
      Real.sqrt_le_sqrt hle'
    rcases h0 with htol | hv0
    · have htol' : (0:ℝ) ≤ (tol : ℝ) := by exact_mod_cast htol
      calc Real.sqrt ((sqNorm u : ℝ))
          ≤ Real.sqrt ((tol : ℝ) ^ 2 * ((sqNorm v : ℚ) : ℝ)) := h1
        _ = (tol : ℝ) * Real.sqrt ((sqNorm v : ℝ)) := by
            rw [Real.sqrt_mul (sq_nonneg _), Real.sqrt_sq_eq_abs, abs_of_nonneg htol']
    · have hv0' : ((sqNorm v : ℚ) : ℝ) = 0 := by exact_mod_cast hv0
      rw [hv0'] at h1 ⊢
      simpa using h1
  · intro h
    by_cases hv0 : sqNorm v = 0
    · have hv0' : ((sqNorm v : ℚ) : ℝ) = 0 := by exact_mod_cast hv0
      rw [hv0', Real.sqrt_zero, mul_zero] at h
      have := Real.sqrt_nonneg ((sqNorm u : ℚ) : ℝ)
      have hzero : Real.sqrt ((sqNorm u : ℚ) : ℝ) = 0 := le_antisymm h this
      have hU : ((sqNorm u : ℚ) : ℝ) = 0 := by
        have := Real.sqrt_eq_zero hu
        exact this.mp hzero
      refine ⟨Or.inr hv0, ?_⟩
      have : sqNorm u = 0 := by exact_mod_cast hU
      rw [this, hv0]
      simp
    · have hvpos : (0:ℝ) < ((sqNorm v : ℚ) : ℝ) := by
        rcases lt_or_eq_of_le hv with h' | h'
        · exact h'
        · exact absurd (by exact_mod_cast h'.symm) hv0
      have hsq : (0:ℝ) < Real.sqrt ((sqNorm v : ℚ) : ℝ) := Real.sqrt_pos.mpr hvpos
      have htol : (0:ℝ) ≤ (tol : ℝ) := by
        by_contra hneg
        push_neg at hneg
        have : (tol : ℝ) * Real.sqrt ((sqNorm v : ℚ) : ℝ) < 0 :=
          mul_neg_of_neg_of_pos hneg hsq
        have := lt_of_le_of_lt h this
        exact absurd this (not_lt.mpr (Real.sqrt_nonneg _))
      refine ⟨Or.inl (by exact_mod_cast htol), ?_⟩
      have hmul := mul_self_le_mul_self (Real.sqrt_nonneg ((sqNorm u : ℚ) : ℝ)) h
      rw [Real.mul_self_sqrt hu] at hmul
      have hr : (tol : ℝ) * Real.sqrt ((sqNorm v : ℚ) : ℝ) *
          ((tol : ℝ) * Real.sqrt ((sqNorm v : ℚ) : ℝ)) =
          (tol : ℝ) ^ 2 * ((sqNorm v : ℚ) : ℝ) := by
        have := Real.mul_self_sqrt hv
        ring_nf
        nlinarith [Real.mul_self_sqrt hv]
      rw [hr] at hmul
      exact_mod_cast hmul

/-! ## Claim theorems: line-search configuration and the Newton stub -/

/-- C7: for the Constant policy with configured value `c`, `line_search`
returns exactly `c` for every oracle, point, direction, previous-step value
(and external Wolfe searcher and backtracking fuel): the result is independent
of all arguments other than the configuration. -/
theorem C7_constant_policy_returns_c (w : WolfeSearcher) (O : Oracle)
    (x d : Vec) (prev : Option ℚ) (fuel : ℕ) (c : ℚ) :
    lineSearch w (.Constant c) O x d prev fuel = .ok (some c) := rfl

/-- C9 counterexample: a falsy value that is neither `None`, nor a dict, nor a
`LineSearchTool` — Python's `0`, `''` or `[]`, modelled as
`LSOptions.other false` — is NOT a construction-time type error:
`get_line_search_tool` silently returns the default Wolfe tool, because the
source tests truthiness (`if line_search_options:`) rather than `is not None`. -/
theorem C9_counterexample :
    get_line_search_tool (LSOptions.other false) = .ok defaultLineSearchTool ∧
      get_line_search_tool (LSOptions.other false) ≠ .error Exc.typeError := by
  refine ⟨rfl, ?_⟩
  intro h
  simp [get_line_search_tool, LSOptions.truthy] at h

/-- C9 (amended): omitted options (`None`) yield the default Wolfe tool with
`c1 = 1e-4`, `c2 = 0.9`, `alpha_0 = 1.0`; a `LineSearchTool` instance is used
as-is; a *truthy* non-dict, non-`LineSearchTool` value raises `TypeError`;
falsy values (`0`, `''`, `[]`, the empty dict) are treated like `None` and
also yield the default tool. -/
theorem C9_get_line_search_tool_amended :
    get_line_search_tool LSOptions.none = .ok (.Wolfe (1/10000) (9/10) 1) ∧
    (∀ t : LineSearchTool, get_line_search_tool (.tool t) = .ok t) ∧
    get_line_search_tool (LSOptions.other true) = .error Exc.typeError ∧
    get_line_search_tool (LSOptions.other false) = .ok (.Wolfe (1/10000) (9/10) 1) ∧
    get_line_search_tool (LSOptions.dict {}) = .ok (.Wolfe (1/10000) (9/10) 1) := by
  exact ⟨rfl, fun t => rfl, rfl, rfl, rfl⟩

/-- C1 (code bug, evaluated at the failing input): on a quadratic oracle with
singular `A` (here the 1×1 zero matrix, `b = [1]`), `newton` started at
`x0 = [0]` returns the message `'success'` with `x0`, not
`'newton_direction_error'` as the claim (and the function's own docstring)
require — the body of `newton` is an unimplemented TODO stub that never
attempts the Hessian solve. -/
theorem C1_newton_singular_returns_success :
    newton (quadOracle [[0]] [1]) LSOptions.none [0] (1/100000) 100 false =
        .ok ([0], "success", none) ∧
      ("success" : String) ≠ "newton_direction_error" := by
  exact ⟨rfl, by decide⟩

/-- C6 (code bug, evaluated at the failing input): on the convex quadratic
oracle with `A = [[1]]` (symmetric positive-definite) and `b = [1]`, whose
unique minimizer is `x* = A⁻¹b = [1]` (its gradient vanishes there), `newton`
from `x0 = [0]` with a full unit step (`Constant c = 1.0`) returns `x0 = [0]`
itself with `'success'` instead of converging to `[1]` in one iteration: the
TODO-stub body returns the starting point unchanged. -/
theorem C6_newton_quadratic_returns_start :
    newton (quadOracle [[1]] [1])
        (LSOptions.dict { method := some "Constant", c := some 1 })
        [0] (1/100000) 100 false = .ok ([0], "success", none) ∧
      (quadOracle [[1]] [1]).grad [1] = .ok [0] ∧
      ([0] : Vec) ≠ [1] := by
  refine ⟨rfl, ?_, by norm_num⟩
  norm_num [quadOracle, subVec, matVec, dot]

/-- A concrete external Wolfe searcher reporting failure the way scipy's
`line_search` does: it returns a result tuple whose first component `alpha`
is `None` (scipy never returns the bare value `None`, so the source's
`a is None` test cannot fire). -/
def wolfeFailSearcher : WolfeSearcher := fun _ _ _ _ _ => .ok (some Option.none)

/-- The 1-D oracle `f(x) = x²` with gradient `2x`, used as a concrete input. -/
def sqOracle : Oracle :=
  Oracle.ofPure (fun v => (v.headD 0) ^ 2) (fun v => [2 * v.headD 0])

/-- C4 (code bug, evaluated at the failing input): when the strong-Wolfe
search reports failure in scipy's format (a tuple with `alpha = None`),
`line_search` under the Wolfe policy returns the failure value `None`
(`a[0]`), NOT the Armijo backtracking step — on the same inputs the Armijo
procedure would return the valid step `1`. The claimed fallback only fires on
`a is None`, which scipy's always-a-tuple return value never satisfies. -/
theorem C4_wolfe_failure_not_armijo :
    lineSearch wolfeFailSearcher (.Wolfe (1/10000) (9/10) 1) sqOracle
        [1] [-1] Option.none 3 = .ok Option.none ∧
      armijo sqOracle [1] [-1] (1/10000) 1 Option.none 3 = .ok 1 ∧
      (Except.ok Option.none : Except Exc (Option ℚ)) ≠ .ok (some 1) := by
  refine ⟨rfl, ?_, by simp⟩
  simp only [armijo, armijoLoop, armijoCondition, phi, phiDeriv, startAlpha,
    addVec, smulVec, dot, sqOracle, Oracle.ofPure, bind, Except.bind, pure,
    Except.pure, List.zipWith, List.sum, List.map]
  norm_num

/-! ## Claim C3: the Armijo backtracking procedure -/

/-- Any step the backtracking loop accepts satisfies `armijo_condition`, and
is the loop's starting value halved some number of times. -/
theorem armijoLoop_ok (O : Oracle) (x d : Vec) (c1 : ℚ) :
    ∀ (fuel : ℕ) (a α : ℚ), armijoLoop O x d c1 fuel a = .ok α →
      armijoCondition O x d c1 α = .ok true ∧ ∃ k : ℕ, α = a / 2 ^ k := by
  intro fuel
  induction fuel with
  | zero =>
    intro a α h
    exact absurd h (by simp [armijoLoop])
  | succ n ih =>
    intro a α h
    rw [armijoLoop] at h
    cases hc : armijoCondition O x d c1 a with
    | error e =>
      rw [hc] at h
      simp [bind, Except.bind] at h
    | ok b =>
      rw [hc] at h
      simp only [bind, Except.bind] at h
      cases b with
      | true =>
        simp only [if_true, pure, Except.pure, Except.ok.injEq] at h
        subst h
        exact ⟨hc, 0, by simp⟩
      | false =>
        simp only [if_false, Bool.false_eq_true] at h
        obtain ⟨hcond, k, hk⟩ := ih (a / 2) α h
        refine ⟨hcond, k + 1, ?_⟩
        rw [hk, div_div]
        congr 1
        rw [pow_succ]
        ring

/-- C3: for every oracle, point `x_k` and direction `d_k` with `φ'(0) < 0`,
any step `α` the Armijo procedure returns satisfies the sufficient-decrease
condition `φ(α) ≤ φ(0) + c1·α·φ'(0)`, and the backtracking starts at
`alpha_0` when no previous step is recorded and at `2 × previous_step`
otherwise, halving until acceptance (`α` is the starting guess divided by a
power of two). -/
theorem C3_armijo_sufficient_decrease (O : Oracle) (x d : Vec)
    (c1 alpha_0 : ℚ) (prev : Option ℚ) (fuel : ℕ) (s α : ℚ)
    (hs : phiDeriv O x d 0 = .ok s) (hdesc : s < 0)
    (hrun : armijo O x d c1 alpha_0 prev fuel = .ok α) :
    (∃ fα f0, phi O x d α = .ok fα ∧ phi O x d 0 = .ok f0 ∧
        fα ≤ f0 + c1 * α * s) ∧
      ∃ k : ℕ, α = startAlpha alpha_0 prev / 2 ^ k := by
  obtain ⟨hcond, k, hk⟩ := armijoLoop_ok O x d c1 fuel _ α hrun
  refine ⟨?_, k, hk⟩
  rw [armijoCondition] at hcond
  cases hl : phi O x d α with
  | error e =>
    rw [hl] at hcond
    simp [bind, Except.bind] at hcond
  | ok fα =>
    rw [hl] at hcond
    cases h0 : phi O x d 0 with
    | error e =>
      rw [h0] at hcond
      simp [bind, Except.bind] at hcond
    | ok f0 =>
      rw [h0, hs] at hcond
      simp only [bind, Except.bind, pure, Except.pure, Except.ok.injEq,
        decide_eq_true_eq] at hcond
      exact ⟨fα, f0, rfl, rfl, hcond⟩

/-- C3 witness: on `f(x) = x²` at `x_k = [1]`, `d_k = [-1]` (so
`φ'(0) = -2 < 0`), the Armijo procedure with `c1 = 1e-4`, `alpha_0 = 1` and no
previous step returns `α = 1`, which satisfies the sufficient-decrease
condition. -/
theorem C3_armijo_sufficient_decrease_witness :
    phiDeriv sqOracle [1] [-1] 0 = .ok (-2) ∧ ((-2 : ℚ) < 0) ∧
      armijo sqOracle [1] [-1] (1/10000) 1 Option.none 3 = .ok 1 ∧
      ((∃ fα f0, phi sqOracle [1] [-1] 1 = .ok fα ∧
          phi sqOracle [1] [-1] 0 = .ok f0 ∧
          fα ≤ f0 + (1/10000) * 1 * (-2)) ∧
        ∃ k : ℕ, (1 : ℚ) = startAlpha 1 Option.none / 2 ^ k) := by
  have hs : phiDeriv sqOracle [1] [-1] 0 = .ok (-2) := by
    simp only [phiDeriv, sqOracle, Oracle.ofPure, addVec, smulVec, dot, bind,
      Except.bind, pure, Except.pure, List.zipWith, List.sum, List.map]
    norm_num
  have hrun : armijo sqOracle [1] [-1] (1/10000) 1 Option.none 3 = .ok 1 := by
    simp only [armijo, armijoLoop, armijoCondition, phi, phiDeriv, startAlpha,
      addVec, smulVec, dot, sqOracle, Oracle.ofPure, bind, Except.bind, pure,
      Except.pure, List.zipWith, List.sum, List.map]
    norm_num
  exact ⟨hs, by norm_num, hrun,
    C3_armijo_sufficient_decrease sqOracle [1] [-1] (1/10000) 1 Option.none 3
      (-2) 1 hs (by norm_num) hrun⟩

/-! ## Claim C5: FloatingPointError handling in gradient_descent -/

/-- C5: whenever a `FloatingPointError` is raised anywhere inside the body of
`gradient_descent`'s `try:` block, the function returns the *original*
starting point `x0` — not the last iterate — with the message
`'computational_error'` and the history as accumulated up to the failure. -/
theorem C5_fpe_returns_x0 (w : WolfeSearcher) (O : Oracle) (opts : LSOptions)
    (x0 : Vec) (tol : ℚ) (maxIter : ℕ) (trace : Bool) (fuel : ℕ)
    (h : Option History)
    (hbody : gdBody w O opts x0 tol maxIter fuel (initHistory trace) =
      (.error .fpe, h)) :
    gradient_descent w O opts x0 tol maxIter trace fuel =
      .ok (x0, "computational_error", h) := by
  rw [gradient_descent, hbody]

/-- An oracle whose gradient evaluation raises `FloatingPointError` everywhere
except at `[0]`: a concrete source of a mid-run floating-point failure. -/
def fragileOracle : Oracle where
  func _ := .ok 0
  grad v := if v = [0] then .ok [1] else .error .fpe
  hess _ := .ok []

/-- `line_search_options = {'method': 'Constant', 'c': 1.0}`. -/
def constantOpts : LSOptions :=
  .dict { method := some "Constant", c := some 1 }

theorem constantOpts_tool : get_line_search_tool constantOpts = .ok (.Constant 1) := rfl

/-- C5 witness: starting `fragileOracle` at `x0 = [0]` with a constant unit
step, the first iteration moves to `x_1 = [-1]`, where the second iteration's
gradient evaluation raises; the driver returns `x0 = [0]` (not the last
iterate `[-1]`) with `'computational_error'`. -/
theorem C5_fpe_returns_x0_witness :
    gdBody wolfeFailSearcher fragileOracle constantOpts [0] 0 5 1
        (initHistory false) = (.error .fpe, none) ∧
      gradient_descent wolfeFailSearcher fragileOracle constantOpts [0] 0 5
        false 1 = .ok ([0], "computational_error", none) := by
  have hbody : gdBody wolfeFailSearcher fragileOracle constantOpts [0] 0 5 1
      (initHistory false) = (.error .fpe, none) := by
    simp only [gdBody, gdLoop, constantOpts_tool, extendHistoryOpt,
      time_to_stop, normLe, sqNorm, lineSearch, addVec, smulVec, negVec, dot,
      isNanQ, isInfVec, initHistory, fragileOracle, wolfeFailSearcher, bind,
      Except.bind, pure, Except.pure, List.zipWith, List.sum, List.map]
    norm_num
  exact ⟨hbody, C5_fpe_returns_x0 wolfeFailSearcher fragileOracle constantOpts
    [0] 0 5 false 1 none hbody⟩

/-! ## Claim C2: the stopping test decides success vs iterations_exceeded -/

/-- One trace record as appended by `extend_history` for a pure oracle. -/
def pushRecord (f : Vec → ℚ) (g : Vec → Vec) (x : Vec) (hh : History) : History where
  time := hh.time ++ [()]
  func := hh.func ++ [f x]
  grad_norm := hh.grad_norm ++ [sqNorm (g x)]
  x := if x.length ≤ 2 then hh.x ++ [x] else hh.x

theorem extendHistory_ofPure (f : Vec → ℚ) (g : Vec → Vec) (x : Vec)
    (hh : History) :
    extendHistory (Oracle.ofPure f g) x hh = (.ok (), pushRecord f g x hh) := by
  by_cases hl : x.length ≤ 2 <;>
    simp [extendHistory, Oracle.ofPure, pushRecord, hl]

theorem extendHistoryOpt_ofPure (f : Vec → ℚ) (g : Vec → Vec) (x : Vec) :
    ∀ h : Option History,
      extendHistoryOpt (Oracle.ofPure f g) x h =
        (.ok (), h.map (pushRecord f g x))
  | Option.none => rfl
  | Option.some hh => by
    simp [extendHistoryOpt, extendHistory_ofPure]

theorem time_to_stop_ofPure (f : Vec → ℚ) (g : Vec → Vec) (x0 : Vec) (tol : ℚ)
    (x : Vec) :
    time_to_stop (Oracle.ofPure f g) x0 tol x = .ok (normLe (g x) (g x0) tol) := rfl

/-- Resolving the line-search options never raises `FloatingPointError`
(its failures are `TypeError` / `ValueError`). -/
theorem get_line_search_tool_ne_fpe (o : LSOptions) :
    get_line_search_tool o ≠ .error .fpe := by
  cases o with
  | none => simp [get_line_search_tool, LSOptions.truthy]
  | tool t => simp [get_line_search_tool, LSOptions.truthy]
  | dict d =>
    simp only [get_line_search_tool, LSOptions.truthy, LineSearchTool.fromDict,
      LineSearchTool.init]
    split_ifs <;> simp
  | other b =>
    cases b <;> simp [get_line_search_tool, LSOptions.truthy]

/-- For a pure oracle, a normal return of the iteration loop carries the
message `'success'` exactly when the stopping test holds at the returned
point, and `'iterations_exceeded'` only when it fails there. -/
theorem gdLoop_ok_msg (w : WolfeSearcher) (f : Vec → ℚ) (g : Vec → Vec)
    (tool : LineSearchTool) (x0 : Vec) (tol : ℚ) (fuel : ℕ) :
    ∀ (n : ℕ) (x : Vec) (aPrev : Option ℚ) (h : Option History)
      (xf : Vec) (msg : String) (hf : Option History),
      gdLoop w (Oracle.ofPure f g) tool x0 tol fuel n x aPrev h =
        (.ok (xf, msg), hf) →
      (msg = "success" ↔ normLe (g xf) (g x0) tol = true) ∧
      (msg = "iterations_exceeded" → normLe (g xf) (g x0) tol = false) := by
  intro n
  induction n with
  | zero =>
    intro x aPrev h xf msg hf hrun
    rw [gdLoop, extendHistoryOpt_ofPure, time_to_stop_ofPure] at hrun
    cases hb : normLe (g x) (g x0) tol with
    | true =>
      rw [hb] at hrun
      simp only [Prod.mk.injEq, Except.ok.injEq] at hrun
      obtain ⟨⟨hx, hmsg⟩, -⟩ := hrun
      subst hx; subst hmsg
      exact ⟨by simp [hb], by intro hcontra; exact absurd hcontra (by decide)⟩
    | false =>
      rw [hb] at hrun
      simp only [Prod.mk.injEq, Except.ok.injEq] at hrun
      obtain ⟨⟨hx, hmsg⟩, -⟩ := hrun
      subst hx; subst hmsg
      exact ⟨by simp [hb], fun _ => hb⟩
  | succ n ih =>
    intro x aPrev h xf msg hf hrun
    rw [gdLoop, extendHistoryOpt_ofPure, time_to_stop_ofPure] at hrun
    cases hb : normLe (g x) (g x0) tol with
    | true =>
      rw [hb] at hrun
      simp only [Prod.mk.injEq, Except.ok.injEq] at hrun
      obtain ⟨⟨hx, hmsg⟩, -⟩ := hrun
      subst hx; subst hmsg
      exact ⟨by simp [hb], by intro hcontra; exact absurd hcontra (by decide)⟩
    | false =>
      rw [hb] at hrun
      simp only [Oracle.ofPure] at hrun
      cases hls : lineSearch w tool (Oracle.ofPure f g) x (negVec (g x)) aPrev fuel with
      | error e =>
        rw [Oracle.ofPure] at hls
        simp only [hls] at hrun
        simp at hrun
      | ok a =>
        rw [Oracle.ofPure] at hls
        simp only [hls] at hrun
        cases a with
        | none => simp at hrun
        | some av =>
          simp only [isNanQ, isInfVec, if_false, Bool.false_eq_true] at hrun
          exact ih _ _ _ _ _ _ hrun

/-- For a pure oracle, the loop can only end in an exception if the stopping
test already failed at the point it was entered at (the test is checked before
anything that can raise). -/
theorem gdLoop_error_start (w : WolfeSearcher) (f : Vec → ℚ) (g : Vec → Vec)
    (tool : LineSearchTool) (x0 : Vec) (tol : ℚ) (fuel : ℕ)
    (n : ℕ) (x : Vec) (aPrev : Option ℚ) (h : Option History)
    (e : Exc) (hf : Option History)
    (hrun : gdLoop w (Oracle.ofPure f g) tool x0 tol fuel n x aPrev h =
      (.error e, hf)) :
    normLe (g x) (g x0) tol = false := by
  cases n with
  | zero =>
    rw [gdLoop, extendHistoryOpt_ofPure, time_to_stop_ofPure] at hrun
    cases hb : normLe (g x) (g x0) tol with
    | true => rw [hb] at hrun; simp at hrun
    | false => rfl
  | succ n =>
    rw [gdLoop, extendHistoryOpt_ofPure, time_to_stop_ofPure] at hrun
    cases hb : normLe (g x) (g x0) tol with
    | true => rw [hb] at hrun; simp at hrun
    | false => rfl

/-- C2: for every pure oracle, starting point, tolerance, iteration budget,
options, searcher and fuel, whenever `gradient_descent` returns normally, the
returned message is `'success'` exactly when the relative stopping test
`‖∇f(x_k)‖ ≤ tolerance · ‖∇f(x_0)‖` (Euclidean norms, measured against the
initial gradient) holds at the returned iterate — the loop returns at the
first visited iterate satisfying the test, including the one final re-check
after `max_iter` iterations are exhausted — and `'iterations_exceeded'` is
returned only when that final re-check fails. -/
theorem C2_success_iff_stopping_test (w : WolfeSearcher) (f : Vec → ℚ)
    (g : Vec → Vec) (opts : LSOptions) (x0 : Vec) (tol : ℚ) (maxIter : ℕ)
    (trace : Bool) (fuel : ℕ) (xf : Vec) (msg : String) (hf : Option History)
    (hrun : gradient_descent w (Oracle.ofPure f g) opts x0 tol maxIter trace
      fuel = .ok (xf, msg, hf)) :
    (msg = "success" ↔
      Real.sqrt ((sqNorm (g xf) : ℝ)) ≤
        (tol : ℝ) * Real.sqrt ((sqNorm (g x0) : ℝ))) ∧
    (msg = "iterations_exceeded" →
      ¬ Real.sqrt ((sqNorm (g xf) : ℝ)) ≤
        (tol : ℝ) * Real.sqrt ((sqNorm (g x0) : ℝ))) := by
  suffices hsuff : (msg = "success" ↔ normLe (g xf) (g x0) tol = true) ∧
      (msg = "iterations_exceeded" → normLe (g xf) (g x0) tol = false) by
    constructor
    · rw [hsuff.1, normLe_iff_sqrt]
    · intro hm
      rw [← normLe_iff_sqrt]
      simp [hsuff.2 hm]
  rw [gradient_descent, gdBody] at hrun
  cases ht : get_line_search_tool opts with
  | error e =>
    rw [ht] at hrun
    cases e with
    | fpe => exact absurd ht (get_line_search_tool_ne_fpe opts)
    | diverge => simp at hrun
    | typeError => simp at hrun
    | valueError => simp at hrun
  | ok tool =>
    rw [ht] at hrun
    dsimp only at hrun
    rcases hbody : gdLoop w (Oracle.ofPure f g) tool x0 tol fuel maxIter x0
        Option.none (initHistory trace) with ⟨res, hh⟩
    rw [hbody] at hrun
    cases res with
    | ok p =>
      rcases p with ⟨x, m⟩
      simp only [Prod.mk.injEq, Except.ok.injEq] at hrun
      obtain ⟨hx, hm, -⟩ := hrun
      subst hx; subst hm
      exact gdLoop_ok_msg w f g tool x0 tol fuel maxIter x0 Option.none
        (initHistory trace) _ _ hh hbody
    | error e =>
      have hstart := gdLoop_error_start w f g tool x0 tol fuel maxIter x0
        Option.none (initHistory trace) e hh hbody
      cases e with
      | fpe =>
        simp only [Prod.mk.injEq, Except.ok.injEq] at hrun
        obtain ⟨hx, hm, -⟩ := hrun
        subst hx; subst hm
        constructor
        · constructor
          · intro hcontra; exact absurd hcontra (by decide)
          · intro hcontra; rw [hstart] at hcontra; exact absurd hcontra (by decide)
        · intro hcontra; exact absurd hcontra (by decide)
      | diverge => simp at hrun
      | typeError => simp at hrun
      | valueError => simp at hrun

/-- The objective `f(x) = x²/2` of the concrete run used in witnesses. -/
def halfSq : Vec → ℚ := fun v => (v.headD 0) ^ 2 / 2

/-- The gradient `∇f(x) = x` of `halfSq` in one dimension. -/
def idGrad : Vec → Vec := fun v => v

/-- C2 witness: on `f(x) = x²/2` from `x0 = [1]` with a constant unit step and
`tolerance = 1/2`, the run returns `([0], 'success')` after one iteration, and
the theorem yields the stopping inequality `‖∇f([0])‖ ≤ ½ · ‖∇f([1])‖`. -/
theorem C2_success_iff_stopping_test_witness :
    gradient_descent wolfeFailSearcher (Oracle.ofPure halfSq idGrad)
        constantOpts [1] (1/2) 5 false 1 = .ok ([0], "success", none) ∧
      Real.sqrt ((sqNorm (idGrad [0]) : ℝ)) ≤
        ((1/2 : ℚ) : ℝ) * Real.sqrt ((sqNorm (idGrad [1]) : ℝ)) := by
  have hrun : gradient_descent wolfeFailSearcher (Oracle.ofPure halfSq idGrad)
      constantOpts [1] (1/2) 5 false 1 = .ok ([0], "success", none) := by
    simp only [gradient_descent, gdBody, gdLoop, constantOpts_tool,
      extendHistoryOpt, extendHistory, time_to_stop, normLe, sqNorm,
      lineSearch, armijo, armijoLoop, armijoCondition, phi, phiDeriv,
      startAlpha, addVec, smulVec, negVec, dot, isNanQ, isInfVec, initHistory,
      Oracle.ofPure, halfSq, idGrad, wolfeFailSearcher, emptyHistory, bind,
      Except.bind, pure, Except.pure, List.zipWith, List.sum, List.map]
    norm_num
  exact ⟨hrun, (C2_success_iff_stopping_test wolfeFailSearcher halfSq idGrad
    constantOpts [1] (1/2) 5 false 1 [0] "success" none hrun).1.mp rfl⟩

/-! ## Claim C8: trace history invariants -/

theorem update_length (g : Vec → Vec) (hg : ∀ v, (g v).length = v.length)
    (x : Vec) (a : ℚ) :
    (addVec x (smulVec a (negVec (g x)))).length = x.length := by
  simp [addVec, smulVec, negVec, List.length_zipWith, hg]

/-- Running the loop on an existing history appends `j + 1` aligned records
(`j` completed iterations plus the record of the entry point), keeps `func`
and `grad_norm` the same length, appends to `x` exactly when the recorded
dimension is at most 2, and reaches `j = n` exactly on the
`'iterations_exceeded'` path. -/
theorem gdLoop_hist (w : WolfeSearcher) (f : Vec → ℚ) (g : Vec → Vec)
    (tool : LineSearchTool) (x0 : Vec) (tol : ℚ) (fuel : ℕ)
    (hg : ∀ v, (g v).length = v.length) :
    ∀ (n : ℕ) (x : Vec) (aPrev : Option ℚ) (hh : History)
      (res : Except Exc (Vec × String)) (hfOpt : Option History),
      x.length = x0.length →
      hh.func.length = hh.grad_norm.length →
      (x0.length ≤ 2 → hh.x.length = hh.func.length) →
      (¬ x0.length ≤ 2 → hh.x = []) →
      gdLoop w (Oracle.ofPure f g) tool x0 tol fuel n x aPrev (some hh) =
        (res, hfOpt) →
      ∃ (hh' : History) (j : ℕ), hfOpt = some hh' ∧ j ≤ n ∧
        hh'.func.length = hh.func.length + j + 1 ∧
        hh'.func.length = hh'.grad_norm.length ∧
        (x0.length ≤ 2 → hh'.x.length = hh'.func.length) ∧
        (¬ x0.length ≤ 2 → hh'.x = []) ∧
        (∀ xf, res = .ok (xf, "iterations_exceeded") → j = n) := by
  intro n
  induction n with
  | zero =>
    intro x aPrev hh res hfOpt hx hbal hxlen hxnil hrun
    rw [gdLoop, extendHistoryOpt_ofPure, time_to_stop_ofPure] at hrun
    simp only [Option.map_some'] at hrun
    have hpf : (pushRecord f g x hh).func.length = hh.func.length + 1 := by
      simp [pushRecord]
    have hpb : (pushRecord f g x hh).func.length =
        (pushRecord f g x hh).grad_norm.length := by
      simp [pushRecord, hbal]
    have hpx : x0.length ≤ 2 → (pushRecord f g x hh).x.length =
        (pushRecord f g x hh).func.length := by
      intro h2
      have : x.length ≤ 2 := hx ▸ h2
      simp [pushRecord, this, hxlen h2]
    have hpn : ¬ x0.length ≤ 2 → (pushRecord f g x hh).x = [] := by
      intro h2
      have : ¬ x.length ≤ 2 := by rw [hx]; exact h2
      simp [pushRecord, this, hxnil h2]
    cases hb : normLe (g x) (g x0) tol with
    | true =>
      rw [hb] at hrun
      simp only [Prod.mk.injEq] at hrun
      obtain ⟨-, hh'⟩ := hrun
      exact ⟨pushRecord f g x hh, 0, hh'.symm, le_refl 0,
        by omega, hpb, hpx, hpn, fun _ _ => rfl⟩
    | false =>
      rw [hb] at hrun
      simp only [Prod.mk.injEq] at hrun
      obtain ⟨-, hh'⟩ := hrun
      exact ⟨pushRecord f g x hh, 0, hh'.symm, le_refl 0,
        by omega, hpb, hpx, hpn, fun _ _ => rfl⟩
  | succ n ih =>
    intro x aPrev hh res hfOpt hx hbal hxlen hxnil hrun
    rw [gdLoop, extendHistoryOpt_ofPure, time_to_stop_ofPure] at hrun
    simp only [Option.map_some'] at hrun
    have hpf : (pushRecord f g x hh).func.length = hh.func.length + 1 := by
      simp [pushRecord]
    have hpb : (pushRecord f g x hh).func.length =
        (pushRecord f g x hh).grad_norm.length := by
      simp [pushRecord, hbal]
    have hpx : x0.length ≤ 2 → (pushRecord f g x hh).x.length =
        (pushRecord f g x hh).func.length := by
      intro h2
      have : x.length ≤ 2 := hx ▸ h2
      simp [pushRecord, this, hxlen h2]
    have hpn : ¬ x0.length ≤ 2 → (pushRecord f g x hh).x = [] := by
      intro h2
      have : ¬ x.length ≤ 2 := by rw [hx]; exact h2
      simp [pushRecord, this, hxnil h2]
    cases hb : normLe (g x) (g x0) tol with
    | true =>
      rw [hb] at hrun
      simp only [Prod.mk.injEq] at hrun
      obtain ⟨hres, hh'⟩ := hrun
      refine ⟨pushRecord f g x hh, 0, hh'.symm, Nat.zero_le _,
        by omega, hpb, hpx, hpn, ?_⟩
      intro xf heq
      rw [← hres] at heq
      simp only [Except.ok.injEq, Prod.mk.injEq] at heq
      exact absurd heq.2 (by decide)
    | false =>
      rw [hb] at hrun
      simp only [Oracle.ofPure] at hrun
      cases hls : lineSearch w tool (Oracle.ofPure f g) x (negVec (g x))
          aPrev fuel with
      | error e =>
        rw [Oracle.ofPure] at hls
        simp only [hls] at hrun
        simp only [Prod.mk.injEq] at hrun
        obtain ⟨hres, hh'⟩ := hrun
        refine ⟨pushRecord f g x hh, 0, hh'.symm, Nat.zero_le _,
          by omega, hpb, hpx, hpn, ?_⟩
        intro xf heq
        rw [← hres] at heq
        exact absurd heq (by simp)
      | ok a =>
        rw [Oracle.ofPure] at hls
        simp only [hls] at hrun
        cases a with
        | none =>
          simp only [Prod.mk.injEq] at hrun
          obtain ⟨hres, hh'⟩ := hrun
          refine ⟨pushRecord f g x hh, 0, hh'.symm, Nat.zero_le _,
            by omega, hpb, hpx, hpn, ?_⟩
          intro xf heq
          rw [← hres] at heq
          exact absurd heq (by simp)
        | some av =>
          simp only [isNanQ, isInfVec, if_false, Bool.false_eq_true] at hrun
          have hx' : (addVec x (smulVec av (negVec (g x)))).length = x0.length := by
            rw [update_length g hg x av, hx]
          obtain ⟨hh', j', hopt, hj, hlen, hbal', hxlen', hxnil', hclause⟩ :=
            ih (addVec x (smulVec av (negVec (g x)))) (some av)
              (pushRecord f g x hh) res hfOpt hx' hpb hpx hpn hrun
          refine ⟨hh', j' + 1, hopt, by omega, by omega, hbal', hxlen',
            hxnil', ?_⟩
          intro xf heq
          rw [hclause xf heq]

/-- C8: for every traced run of `gradient_descent` on a pure oracle (with a
dimension-preserving gradient) that returns, the history lists `func` and
`grad_norm` have equal length; that length is `k + 1` for some `k ≤ max_iter`
(`k` iterations run plus one final record), with `k = max_iter` exactly on the
`'iterations_exceeded'` path; the key `x` is present (the `defaultdict` list
is nonempty) iff the dimension of the point is ≤ 2; and when present,
`history['x']` has the same length as `history['func']`. -/
theorem C8_trace_invariants (w : WolfeSearcher) (f : Vec → ℚ) (g : Vec → Vec)
    (opts : LSOptions) (x0 : Vec) (tol : ℚ) (maxIter fuel : ℕ)
    (xf : Vec) (msg : String) (hf : Option History)
    (hg : ∀ v, (g v).length = v.length)
    (hrun : gradient_descent w (Oracle.ofPure f g) opts x0 tol maxIter true
      fuel = .ok (xf, msg, hf)) :
    ∃ h : History, hf = some h ∧
      h.func.length = h.grad_norm.length ∧
      (h.x ≠ [] ↔ x0.length ≤ 2) ∧
      (x0.length ≤ 2 → h.x.length = h.func.length) ∧
      ∃ k, k ≤ maxIter ∧ h.func.length = k + 1 ∧
        (msg = "iterations_exceeded" → k = maxIter) := by
  rw [gradient_descent, gdBody] at hrun
  cases ht : get_line_search_tool opts with
  | error e =>
    rw [ht] at hrun
    cases e with
    | fpe => exact absurd ht (get_line_search_tool_ne_fpe opts)
    | diverge => simp at hrun
    | typeError => simp at hrun
    | valueError => simp at hrun
  | ok tool =>
    rw [ht] at hrun
    dsimp only at hrun
    rcases hbody : gdLoop w (Oracle.ofPure f g) tool x0 tol fuel maxIter x0
        Option.none (initHistory true) with ⟨res, hh⟩
    rw [hbody] at hrun
    have hemp : initHistory true = some emptyHistory := rfl
    rw [hemp] at hbody
    obtain ⟨hh', j, hopt, hj, hlen, hbal, hxlen, hxnil, hclause⟩ :=
      gdLoop_hist w f g tool x0 tol fuel hg maxIter x0 Option.none
        emptyHistory res hh rfl rfl (fun _ => rfl) (fun _ => rfl) hbody
    have hflen : hh'.func.length = j + 1 := by
      have : emptyHistory.func.length = 0 := rfl
      omega
    have hxne : hh'.x ≠ [] ↔ x0.length ≤ 2 := by
      constructor
      · intro hne
        by_contra h2
        exact hne (hxnil h2)
      · intro h2
        have hlx : hh'.x.length = j + 1 := by rw [hxlen h2, hflen]
        exact List.ne_nil_of_length_pos (by omega)
    cases res with
    | ok p =>
      rcases p with ⟨x, m⟩
      simp only [Prod.mk.injEq, Except.ok.injEq] at hrun
      obtain ⟨hx, hm, hhf⟩ := hrun
      subst hx; subst hm
      refine ⟨hh', by rw [← hhf, hopt], hbal, hxne, hxlen, j, hj, hflen, ?_⟩
      intro hmsg
      exact hclause _ (by rw [hmsg])
    | error e =>
      cases e with
      | fpe =>
        simp only [Prod.mk.injEq, Except.ok.injEq] at hrun
        obtain ⟨hx, hm, hhf⟩ := hrun
        subst hx; subst hm
        refine ⟨hh', by rw [← hhf, hopt], hbal, hxne, hxlen, j, hj, hflen, ?_⟩
        intro hmsg
        exact absurd hmsg (by decide)
      | diverge => simp at hrun
      | typeError => simp at hrun
      | valueError => simp at hrun

/-- C8 witness: the traced run of the concrete quadratic example records two
aligned history entries (one iteration plus the final record), including the
trajectory because the dimension is 1 ≤ 2. -/
theorem C8_trace_invariants_witness :
    ∃ h : History,
      (some (⟨[(), ()], [1/2, 0], [1, 0], [[1], [0]]⟩ : History) :
        Option History) = some h ∧
      h.func.length = h.grad_norm.length ∧
      (h.x ≠ [] ↔ ([1] : Vec).length ≤ 2) ∧
      (([1] : Vec).length ≤ 2 → h.x.length = h.func.length) ∧
      ∃ k, k ≤ 5 ∧ h.func.length = k + 1 ∧
        (("success" : String) = "iterations_exceeded" → k = 5) := by
  have hg : ∀ v : Vec, (idGrad v).length = v.length := fun v => rfl
  have hrun : gradient_descent wolfeFailSearcher (Oracle.ofPure halfSq idGrad)
      constantOpts [1] (1/2) 5 true 1 =
      .ok ([0], "success", some ⟨[(), ()], [1/2, 0], [1, 0], [[1], [0]]⟩) := by
    simp only [gradient_descent, gdBody, gdLoop, constantOpts_tool,
      extendHistoryOpt, extendHistory, time_to_stop, normLe, sqNorm,
      lineSearch, armijo, armijoLoop, armijoCondition, phi, phiDeriv,
      startAlpha, addVec, smulVec, negVec, dot, isNanQ, isInfVec, initHistory,
      Oracle.ofPure, halfSq, idGrad, wolfeFailSearcher, emptyHistory, bind,
      Except.bind, pure, Except.pure, List.zipWith, List.sum, List.map]
    norm_num
  exact C8_trace_invariants wolfeFailSearcher halfSq idGrad constantOpts [1]
    (1/2) 5 1 [0] "success" _ hg hrun

/-! ## Claim C10: the caller's x_0 array is never modified

The value-level embedding above treats numpy arrays by value, so aliasing is
invisible there. This reference-level embedding of the same source lines
(`gradient_descent`, lines 170–214) tracks array objects in an explicit heap:
every numpy operation the source performs (`np.copy`, unary `-`, `+`, scalar
`*`) returns a freshly allocated array, the update `x_k = x_k + a_k * d_k`
rebinds the name to a new reference, and nothing ever writes into an existing
cell — which is exactly what the frame claim asserts. -/

/-- The numpy array heap: one cell per allocated array. -/
abbrev Heap := List Vec

/-- Dereference an array. -/
def readH (h : Heap) (r : ℕ) : Vec := h.getD r []

/-- Allocate a fresh array, returning the new heap and the new reference. -/
def allocH (h : Heap) (v : Vec) : Heap × ℕ := (h ++ [v], h.length)

/-- The trace history at the reference level: `history['x']` stores references
to the iterate arrays themselves (Python appends the array object, not a
copy). -/
structure HistoryH where
  time : List Unit
  func : List ℚ
  grad_norm : List ℚ
  xrefs : List ℕ
deriving DecidableEq, Repr

/-- The empty `defaultdict(list)` at the reference level. -/
def emptyHistoryH : HistoryH := ⟨[], [], [], []⟩

/-- `extend_history` at the reference level: reads the iterate, appends the
scalar records by value and the array reference for the trajectory; allocates
nothing. -/
def extendHistoryH (O : Oracle) (heap : Heap) (r : ℕ) (h : HistoryH) :
    Except Exc Unit × HistoryH :=
  match O.grad (readH heap r) with
  | .error e => (.error e, h)
  | .ok g =>
    let h1 : HistoryH := { h with time := h.time ++ [()] }
    match O.func (readH heap r) with
    | .error e => (.error e, h1)
    | .ok fx =>
      let h2 : HistoryH := { h1 with
        func := h1.func ++ [fx]
        grad_norm := h1.grad_norm ++ [sqNorm g] }
      let h3 : HistoryH :=
        if (readH heap r).length ≤ 2 then { h2 with xrefs := h2.xrefs ++ [r] }
        else h2
      (.ok (), h3)

/-- `extend_history` at the reference level including the
`if history is None: return` guard. -/
def extendHistoryHOpt (O : Oracle) (heap : Heap) (r : ℕ) :
    Option HistoryH → Except Exc Unit × Option HistoryH
  | Option.none => (.ok (), Option.none)
  | Option.some h =>
    let p := extendHistoryH O heap r h
    (p.1, some p.2)

/-- The `for` loop of `gradient_descent` at the reference level: identical
control flow to `gdLoop`, with `d_k = -g_k` and `x_k + a_k * d_k` each
allocating a fresh array and `x_k` rebinding to the new reference; oracle and
line-search calls receive array values read from the heap. -/
def gdLoopH (w : WolfeSearcher) (O : Oracle) (tool : LineSearchTool)
    (x0r : ℕ) (tol : ℚ) (fuel : ℕ) :
    ℕ → Heap → ℕ → Option ℚ → Option HistoryH →
      Heap × Option HistoryH × Except Exc (ℕ × String)
  | 0, heap, xr, _, h =>
    match extendHistoryHOpt O heap xr h with
    | (.error e, h1) => (heap, h1, .error e)
    | (.ok _, h1) =>
      match time_to_stop O (readH heap x0r) tol (readH heap xr) with
      | .error e => (heap, h1, .error e)
      | .ok true => (heap, h1, .ok (xr, "success"))
      | .ok false => (heap, h1, .ok (xr, "iterations_exceeded"))
  | n + 1, heap, xr, aPrev, h =>
    match extendHistoryHOpt O heap xr h with
    | (.error e, h1) => (heap, h1, .error e)
    | (.ok _, h1) =>
      match time_to_stop O (readH heap x0r) tol (readH heap xr) with
      | .error e => (heap, h1, .error e)
      | .ok true => (heap, h1, .ok (xr, "success"))
      | .ok false =>
        match O.grad (readH heap xr) with
        | .error e => (heap, h1, .error e)
        | .ok g =>
          let ad := allocH heap (negVec g)
          match lineSearch w tool O (readH ad.1 xr) (readH ad.1 ad.2)
              aPrev fuel with
          | .error e => (ad.1, h1, .error e)
          | .ok Option.none => (ad.1, h1, .error .typeError)
          | .ok (Option.some a) =>
            if isNanQ a then (ad.1, h1, .ok (xr, "a_k computational_error"))
            else if isInfVec (readH ad.1 xr) then
              (ad.1, h1, .ok (xr, "x_k computational_error"))
            else if isInfVec (readH ad.1 ad.2) then
              (ad.1, h1, .ok (xr, "d_k computational_error"))
            else
              let ax := allocH ad.1
                (addVec (readH ad.1 xr) (smulVec a (readH ad.1 ad.2)))
              gdLoopH w O tool x0r tol fuel n ax.1 ax.2 (some a) h1

/-- `gradient_descent` at the reference level: `x_k = np.copy(x_0)` allocates
a fresh cell holding a copy of `x_0`'s contents, and the
`except FloatingPointError` handler returns the reference `x0r` itself. -/
def gradient_descentH (w : WolfeSearcher) (O : Oracle) (opts : LSOptions)
    (heap : Heap) (x0r : ℕ) (tol : ℚ) (maxIter : ℕ) (trace : Bool)
    (fuel : ℕ) : Heap × Option HistoryH × Except Exc (ℕ × String) :=
  let h0 : Option HistoryH := if trace then some emptyHistoryH else none
  match get_line_search_tool opts with
  | .error e => (heap, h0, .error e)
  | .ok tool =>
    let ac := allocH heap (readH heap x0r)
    match gdLoopH w O tool x0r tol fuel maxIter ac.1 ac.2 Option.none h0 with
    | (heap2, h, .ok (r, msg)) => (heap2, h, .ok (r, msg))
    | (heap2, h, .error .fpe) => (heap2, h, .ok (x0r, "computational_error"))
    | (heap2, h, .error e) => (heap2, h, .error e)

/-- The loop only ever appends to the heap. -/
theorem gdLoopH_extends (w : WolfeSearcher) (O : Oracle)
    (tool : LineSearchTool) (x0r : ℕ) (tol : ℚ) (fuel : ℕ) :
    ∀ (n : ℕ) (heap : Heap) (xr : ℕ) (aPrev : Option ℚ)
      (h : Option HistoryH),
      ∃ t : Heap,
        (gdLoopH w O tool x0r tol fuel n heap xr aPrev h).1 = heap ++ t := by
  intro n
  induction n with
  | zero =>
    intro heap xr aPrev h
    refine ⟨[], ?_⟩
    rw [List.append_nil, gdLoopH]
    rcases hE : extendHistoryHOpt O heap xr h with ⟨r1, h1⟩
    cases r1 with
    | error e => rfl
    | ok u =>
      rcases hT : time_to_stop O (readH heap x0r) tol (readH heap xr) with e | b
      · rfl
      · cases b <;> rfl
  | succ n ih =>
    intro heap xr aPrev h
    rw [gdLoopH]
    rcases hE : extendHistoryHOpt O heap xr h with ⟨r1, h1⟩
    cases r1 with
    | error e => exact ⟨[], by simp⟩
    | ok u =>
      rcases hT : time_to_stop O (readH heap x0r) tol (readH heap xr) with e | b
      · exact ⟨[], by simp [hT]⟩
      · cases b with
        | true => exact ⟨[], by simp [hT]⟩
        | false =>
          rcases hG : O.grad (readH heap xr) with e | g
          · exact ⟨[], by simp [hT, hG]⟩
          · simp only [allocH]
            rcases hL : lineSearch w tool O (readH (heap ++ [negVec g]) xr)
                (readH (heap ++ [negVec g]) heap.length) aPrev fuel with e | a
            · exact ⟨[negVec g], by simp [hL]⟩
            · cases a with
              | none => exact ⟨[negVec g], by simp [hL]⟩
              | some av =>
                obtain ⟨t', ht'⟩ := ih
                  ((heap ++ [negVec g]) ++
                    [addVec (readH (heap ++ [negVec g]) xr)
                      (smulVec av (readH (heap ++ [negVec g]) heap.length))])
                  (heap ++ [negVec g]).length (some av) h1
                refine ⟨[negVec g] ++
                  ([addVec (readH (heap ++ [negVec g]) xr)
                      (smulVec av (readH (heap ++ [negVec g]) heap.length))] ++
                    t'), ?_⟩
                simp only [hL, isNanQ, isInfVec, if_false, Bool.false_eq_true]
                rw [ht']
                simp [List.append_assoc]

/-- The whole driver only ever appends to the heap. -/
theorem gradient_descentH_extends (w : WolfeSearcher) (O : Oracle)
    (opts : LSOptions) (heap : Heap) (x0r : ℕ) (tol : ℚ) (maxIter : ℕ)
    (trace : Bool) (fuel : ℕ) :
    ∃ t : Heap,
      (gradient_descentH w O opts heap x0r tol maxIter trace fuel).1 =
        heap ++ t := by
  rw [gradient_descentH]
  cases ht : get_line_search_tool opts with
  | error e => exact ⟨[], by simp⟩
  | ok tool =>
    simp only [allocH]
    obtain ⟨t', ht'⟩ := gdLoopH_extends w O tool x0r tol fuel maxIter
      (heap ++ [readH heap x0r]) heap.length Option.none
      (if trace then some emptyHistoryH else none)
    rcases hL : gdLoopH w O tool x0r tol fuel maxIter
        (heap ++ [readH heap x0r]) heap.length Option.none
        (if trace then some emptyHistoryH else none) with ⟨heap2, hh, res⟩
    rw [hL] at ht'
    refine ⟨[readH heap x0r] ++ t', ?_⟩
    cases res with
    | ok p =>
      rcases p with ⟨r, msg⟩
      simpa [List.append_assoc] using ht'
    | error e =>
      cases e <;> simpa [List.append_assoc] using ht'

/-- C10: the caller's `x_0` array is never modified by `gradient_descent`:
whatever the oracle, options, searcher, budgets and return path (success,
iterations_exceeded, the computational-error catch, or a propagated
exception), the cell `x0r` holds the same contents after the run as before —
the driver iterates on the `np.copy`, and every update allocates a fresh
array. -/
theorem C10_x0_never_modified (w : WolfeSearcher) (O : Oracle)
    (opts : LSOptions) (heap : Heap) (x0r : ℕ) (tol : ℚ) (maxIter : ℕ)
    (trace : Bool) (fuel : ℕ) (hr : x0r < heap.length) :
    readH (gradient_descentH w O opts heap x0r tol maxIter trace fuel).1 x0r =
      readH heap x0r := by
  obtain ⟨t, ht⟩ :=
    gradient_descentH_extends w O opts heap x0r tol maxIter trace fuel
  rw [ht, readH, readH, List.getD_append _ _ _ _ hr]

/-- C10 witness: a concrete one-cell heap holding `x_0 = [1]`; after the
concrete gradient-descent run, cell 0 still holds `[1]`. -/
theorem C10_x0_never_modified_witness :
    0 < ([[1]] : Heap).length ∧
      readH (gradient_descentH wolfeFailSearcher
        (Oracle.ofPure halfSq idGrad) constantOpts [[1]] 0 (1/2) 5 false
        1).1 0 = readH [[1]] 0 :=
  ⟨by decide, C10_x0_never_modified wolfeFailSearcher
    (Oracle.ofPure halfSq idGrad) constantOpts [[1]] 0 (1/2) 5 false 1
    (by decide)⟩
